import Mathlib

/-!
Verification development for the `toltool` command-line tool
(`src/toltool/cli.py`): a shallow embedding of its metadata locator,
metadata parser and submission extractor, together with theorems checking
the natural-language specification against that embedding.

Strings are modelled as Lean `String` (a wrapper around `List Char`);
Python regular-expression matching is modelled by executable scanning
functions that mirror the backtracking semantics of the concrete patterns
used in the source (all of which are backtrack-deterministic except for
the positions of `.*`, which the scanners enumerate explicitly).
Python's `\d` is modelled as an ASCII digit and `\s` as ASCII whitespace.
-/

/-! ## Generic list/string helpers -/

/-- `beginsWith p cs` holds when the list `cs` starts with the pattern `p`
(character-by-character comparison, as a Python literal regex fragment does). -/
def beginsWith : List Char → List Char → Bool
  | [], _ => true
  | _ :: _, [] => false
  | p :: ps, c :: cs => p = c && beginsWith ps cs

/-- `endsWithChars suf cs`: the list `cs` ends with `suf`
(models Python's `str.endswith`). -/
def endsWithChars (suf cs : List Char) : Bool :=
  beginsWith suf.reverse cs.reverse

/-- Assignment `d[k] = v` on a Python `dict` modelled as an association list:
an existing binding of `k` is updated in place, otherwise `(k, v)` is appended. -/
def dictInsert {α : Type} : List (String × α) → String → α → List (String × α)
  | [], k, v => [(k, v)]
  | (k', v') :: rest, k, v =>
    if k' = k then (k, v) :: rest else (k', v') :: dictInsert rest k v

/-- Lookup `d[k]` on a Python `dict` modelled as an association list. -/
def dictLookup {α : Type} : List (String × α) → String → Option α
  | [], _ => none
  | (k', v') :: rest, k => if k' = k then some v' else dictLookup rest k

/-- Whether an `Except` computation succeeded. -/
def isOkB {ε α : Type} : Except ε α → Bool
  | Except.ok _ => true
  | Except.error _ => false

/-- A run of `n` ASCII digits (the shape matched by Python's `\d{n}`,
restricted to ASCII). -/
def DigitRun (d : List Char) (n : Nat) : Prop :=
  d.length = n ∧ ∀ c ∈ d, c.isDigit = true

/-! ## Python string semantics helpers -/

/-- ASCII fragment of the character class matched by Python's `\s`. -/
def isPySpace (c : Char) : Bool :=
  c = ' ' || c = '\t' || c = '\n' || c = '\r' || c = '\x0b' || c = '\x0c'

/-- Line-boundary characters of Python's `str.splitlines`. -/
def isLineBreak (c : Char) : Bool :=
  c = '\n' || c = '\r' || c = '\x0b' || c = '\x0c' || c = '\x1c' ||
  c = '\x1d' || c = '\x1e' || c = '\x85' || c = '\u2028' || c = '\u2029'

/-- Python's `str.splitlines`: boundary characters are removed, `\r\n`
counts as a single boundary, and a trailing boundary yields no extra
empty line (so `"" ↦ []` and `"a\n" ↦ ["a"]`). -/
def pySplitLines : List Char → List (List Char)
  | [] => []
  | '\r' :: '\n' :: rest => [] :: pySplitLines rest
  | c :: rest =>
    if isLineBreak c then [] :: pySplitLines rest
    else
      match pySplitLines rest with
      | [] => [[c]]
      | l :: ls => (c :: l) :: ls

/-- Python's `str.split(' ')`: split on every single space character,
keeping empty fragments (`"" ↦ [""]`, `"a  b" ↦ ["a", "", "b"]`). -/
def pySplitOnSpace : List Char → List (List Char)
  | [] => [[]]
  | c :: rest =>
    if c = ' ' then [] :: pySplitOnSpace rest
    else
      match pySplitOnSpace rest with
      | [] => [[c]]
      | l :: ls => (c :: l) :: ls

/-- Python's `str.lower`, restricted to ASCII letters (the only letters the
slug pipeline feeds it after transliteration). -/
def pyLower (s : String) : String :=
  String.mk (s.data.map Char.toLower)

/-- Model of the third-party `unidecode` transliteration for one character:
ASCII characters map to themselves and common accented Latin-1 letters map
to their base letter; other characters are kept unchanged. -/
def unidecodeChar (c : Char) : List Char :=
  if c.toNat < 128 then [c]
  else if c = 'á' ∨ c = 'à' ∨ c = 'â' ∨ c = 'ä' ∨ c = 'ã' ∨ c = 'å' then ['a']
  else if c = 'é' ∨ c = 'è' ∨ c = 'ê' ∨ c = 'ë' then ['e']
  else if c = 'í' ∨ c = 'ì' ∨ c = 'î' ∨ c = 'ï' then ['i']
  else if c = 'ó' ∨ c = 'ò' ∨ c = 'ô' ∨ c = 'ö' ∨ c = 'õ' then ['o']
  else if c = 'ú' ∨ c = 'ù' ∨ c = 'û' ∨ c = 'ü' then ['u']
  else if c = 'ñ' then ['n']
  else if c = 'ç' then ['c']
  else if c = 'Á' ∨ c = 'À' ∨ c = 'Â' ∨ c = 'Ä' ∨ c = 'Ã' ∨ c = 'Å' then ['A']
  else if c = 'É' ∨ c = 'È' ∨ c = 'Ê' ∨ c = 'Ë' then ['E']
  else if c = 'Í' ∨ c = 'Ì' ∨ c = 'Î' ∨ c = 'Ï' then ['I']
  else if c = 'Ó' ∨ c = 'Ò' ∨ c = 'Ô' ∨ c = 'Ö' ∨ c = 'Õ' then ['O']
  else if c = 'Ú' ∨ c = 'Ù' ∨ c = 'Û' ∨ c = 'Ü' then ['U']
  else if c = 'Ñ' then ['N']
  else if c = 'Ç' then ['C']
  else if c = 'ß' then ['s', 's']
  else [c]

/-- Model of the third-party `unidecode` transliteration of a string. -/
def unidecode (s : String) : String :=
  String.mk (s.data.map unidecodeChar).flatten

/-! ## Metadata Locator (`is_metadata_file`)

The source tests `re.fullmatch` of
`.*_q\d{7}_(poging|attempt)_\d{4}-\d{2}-\d{2}-\d{2}-\d{2}-\d{2}\.txt`.
The part after `.*` is backtrack-free (fixed-width literals and digit runs,
and the two alternatives of the keyword differ at their first character),
so it is modelled by a sequential consumer; the `.*` is modelled by trying
the tail at every position reachable through non-newline characters, which
is exactly the semantics of `.` not matching a newline. -/

/-- Consume the literal `lit` from the front of `cs`. -/
def consumeLit (lit cs : List Char) : Option (List Char) :=
  if beginsWith lit cs then some (cs.drop lit.length) else none

/-- Consume exactly `n` ASCII digits from the front of `cs`. -/
def consumeDigits : Nat → List Char → Option (List Char)
  | 0, cs => some cs
  | _ + 1, [] => none
  | n + 1, c :: cs => if c.isDigit then consumeDigits n cs else none

/-- The keyword alternation `(poging|attempt)`: the two alternatives are
tried in pattern order (they are mutually exclusive, differing at their
first character). -/
def pogingOrAttempt (cs : List Char) : Option (List Char) :=
  match consumeLit "poging".data cs with
  | some r => some r
  | none => consumeLit "attempt".data cs

/-- Consume the timestamp `\d{4}-\d{2}-\d{2}-\d{2}-\d{2}-\d{2}` of the
metadata-file pattern. -/
def consumeTimestamp (cs : List Char) : Option (List Char) :=
  (consumeDigits 4 cs).bind fun cs =>
  (consumeLit ['-'] cs).bind fun cs =>
  (consumeDigits 2 cs).bind fun cs =>
  (consumeLit ['-'] cs).bind fun cs =>
  (consumeDigits 2 cs).bind fun cs =>
  (consumeLit ['-'] cs).bind fun cs =>
  (consumeDigits 2 cs).bind fun cs =>
  (consumeLit ['-'] cs).bind fun cs =>
  (consumeDigits 2 cs).bind fun cs =>
  (consumeLit ['-'] cs).bind fun cs =>
  consumeDigits 2 cs

/-- Consume the fixed tail of the metadata-file pattern:
`_q\d{7}_(poging|attempt)_\d{4}-\d{2}-\d{2}-\d{2}-\d{2}-\d{2}\.txt`. -/
def metaTailRest (cs : List Char) : Option (List Char) :=
  (consumeLit ['_', 'q'] cs).bind fun cs =>
  (consumeDigits 7 cs).bind fun cs =>
  (consumeLit ['_'] cs).bind fun cs =>
  (pogingOrAttempt cs).bind fun cs =>
  (consumeLit ['_'] cs).bind fun cs =>
  (consumeTimestamp cs).bind fun cs =>
  consumeLit ".txt".data cs

/-- The fixed tail matches `cs` entirely (full match ends at the end). -/
def metaTailMatch (cs : List Char) : Bool :=
  match metaTailRest cs with
  | some [] => true
  | _ => false

/-- Full match of `.*TAIL`: either the tail matches here, or one
non-newline character is consumed by `.*` and scanning continues. -/
def metaScan : List Char → Bool
  | [] => metaTailMatch []
  | c :: rest => metaTailMatch (c :: rest) || (c ≠ '\n' && metaScan rest)

/-- `is_metadata_file` from `cli.py`: full-match of the metadata filename
pattern. -/
def is_metadata_file (filename : String) : Bool :=
  metaScan filename.data

/-! ## Metadata Parser: name and q-id extraction

The source runs `re.search(r'(?:Name|Naam): (.*) \((q\d+)\)', metadata)`.
`re.search` tries every start position from the left; at a given position
the two keyword alternatives are mutually exclusive, the greedy `(.*)`
prefers the longest newline-free stretch, and `\d+` followed by `\)` can
only succeed on the maximal digit run, so the whole pattern is modelled by
the deterministic scanners below. -/

/-- Consume a digit run terminated by `)` (the `\d+\)` part of the name
pattern): returns the digits, or `none` if a non-digit other than `)` is
reached. The run may be empty; callers require nonemptiness. -/
def digitRunParen : List Char → Option (List Char)
  | [] => none
  | c :: rest =>
    if c = ')' then some []
    else if c.isDigit then (digitRunParen rest).map (c :: ·)
    else none

/-- Try to match ` \((q\d+)\)` at the current position, returning the
captured `q`-id (`q` followed by at least one digit). -/
def tryTail : List Char → Option (List Char)
  | a :: b :: c :: rest =>
    if a = ' ' ∧ b = '(' ∧ c = 'q' then
      (digitRunParen rest).bind fun ds =>
        if ds.isEmpty then none else some ('q' :: ds)
    else none
  | _ => none

/-- Greedy match of `(.*) \((q\d+)\)` starting here: prefer consuming one
more non-newline character into the name capture; at the deepest successful
position take the parenthesised q-id. Returns (name, qid). -/
def greedyNameQid : List Char → Option (List Char × List Char)
  | [] => none
  | c :: rest =>
    if c = '\n' then (tryTail (c :: rest)).map fun q => (([] : List Char), q)
    else
      match greedyNameQid rest with
      | some p => some (c :: p.1, p.2)
      | none => (tryTail (c :: rest)).map fun q => (([] : List Char), q)

/-- Match `(?:Name|Naam): (.*) \((q\d+)\)` anchored at the current
position. -/
def matchNameHere (cs : List Char) : Option (List Char × List Char) :=
  if beginsWith "Name: ".data cs then greedyNameQid (cs.drop 6)
  else if beginsWith "Naam: ".data cs then greedyNameQid (cs.drop 6)
  else none

/-- `re.search` of the name pattern: leftmost start position wins. -/
def searchNameQid : List Char → Option (List Char × List Char)
  | [] => none
  | c :: rest =>
    match matchNameHere (c :: rest) with
    | some r => some r
    | none => searchNameQid rest

/-- `extract_name_and_qid_from_metadata` from `cli.py`; the raised
`MetadataError` is modelled as the `Except.error` case carrying the
exception message. -/
def extract_name_and_qid_from_metadata (metadata : String) :
    Except String (String × String) :=
  match searchNameQid metadata.data with
  | some p => Except.ok (String.mk p.1, String.mk p.2)
  | none => Except.error "Failed to extract name"

/-! ## Metadata Parser: submitted-files mapping

`find_submitted_files` iterates over `metadata.splitlines()` and applies
`re.fullmatch(r'\s+(?:Oorspronkelijke bestandsnaam|Original filename): (.*)', line)`
and `re.fullmatch(r'\s+(?:Bestandsnaam|Filename): (.*)', line)`.
Since each keyword starts with a non-whitespace character, a full match
forces `\s+` to consume exactly the (nonempty) maximal leading whitespace
run, and `(.*)` to consume exactly the newline-free remainder of the
line. -/

/-- Keywords of the original-filename line pattern. -/
def kwOrig : List (List Char) :=
  ["Oorspronkelijke bestandsnaam".data, "Original filename".data]

/-- Keywords of the in-archive filename line pattern. -/
def kwFile : List (List Char) :=
  ["Bestandsnaam".data, "Filename".data]

/-- Try the keyword alternatives in order: if `rest` begins with
`kw ++ ": "`, return the remainder of the line after it. -/
def matchKw : List (List Char) → List Char → Option (List Char)
  | [], _ => none
  | kw :: kws, rest =>
    if beginsWith (kw ++ [':', ' ']) rest then some (rest.drop (kw.length + 2))
    else matchKw kws rest

/-- Full-line match of `\s+(?:KW₁|KW₂): (.*)` against `line`: a nonempty
leading whitespace run, a keyword, `": "`, and a newline-free value
occupying the rest of the line. Returns the captured value. -/
def matchTagged (kws : List (List Char)) (line : List Char) : Option (List Char) :=
  if (line.takeWhile isPySpace).isEmpty then none
  else
    (matchKw kws (line.drop (line.takeWhile isPySpace).length)).bind
      fun v => if v.any (· = '\n') then none else some v

/-- One iteration of the `find_submitted_files` loop: state is the current
`actual_name` and the dictionary built so far. -/
def fmStep (st : String × List (String × String)) (line : List Char) :
    String × List (String × String) :=
  let an := match matchTagged kwOrig line with
            | some v => String.mk v
            | none => st.1
  match matchTagged kwFile line with
  | some v => (an, dictInsert st.2 (String.mk v) an)
  | none => (an, st.2)

/-- `find_submitted_files` from `cli.py`: line-by-line scan with
`actual_name` initialised to `"dummy"`, producing the dict mapping each
in-archive filename to the original filename current at its line. -/
def find_submitted_files (metadata : String) : List (String × String) :=
  ((pySplitLines metadata.data).foldl fmStep ("dummy", [])).2

/-- The `Submission` pydantic model of `cli.py`; `files` is its
insertion-ordered dict. -/
structure Submission where
  name : String
  qid : String
  files : List (String × String)

/-- `parse_metadata` from `cli.py`. -/
def parse_metadata (metadata : String) : Except String Submission :=
  match extract_name_and_qid_from_metadata metadata with
  | Except.error e => Except.error e
  | Except.ok p => Except.ok ⟨p.1, p.2, find_submitted_files metadata⟩

/-- `find_submissions` from `cli.py`. The archive is modelled as the
ordered list of its entries, each with its name and its (UTF-8 decoded)
text content. The generator's yields are collected in the first component;
the lines printed to standard error in the second. -/
def find_submissions : List (String × String) → List Submission × List String
  | [] => ([], [])
  | entry :: rest =>
    if is_metadata_file entry.1 then
      match parse_metadata entry.2 with
      | Except.ok s =>
        (s :: (find_submissions rest).1, (find_submissions rest).2)
      | Except.error _ =>
        ((find_submissions rest).1,
         ("Error: could not parse metadata from $" ++ entry.1) ::
           (find_submissions rest).2)
    else find_submissions rest

/-! ## Submission Extractor

The filesystem side effects are modelled by an explicit state: a set of
created directories and a mapping from paths to file contents. A zip
archive is modelled as the ordered list of its entries; an entry's content
either is plain data or parses as a nested archive (`FileData.zipped`),
which is what `ZipFile` applied to its bytes would yield. -/

/-- Content of an archive entry or of a file on disk. -/
inductive FileData where
  | raw (text : String) : FileData
  | zipped (entries : List (String × FileData)) : FileData

/-- The filesystem state touched by the extractor. -/
structure FileSystem where
  dirs : List String
  files : List (String × FileData)

/-- Write (or overwrite) the file at `path`. -/
def fsWrite (fs : FileSystem) (path : String) (d : FileData) : FileSystem :=
  ⟨fs.dirs, dictInsert fs.files path d⟩

/-- Remove the file at `path` (first half of `os.rename`). -/
def fsRemove (fs : FileSystem) (path : String) : FileSystem :=
  ⟨fs.dirs, fs.files.filter fun p => p.1 ≠ path⟩

/-- `if not os.path.exists(directory): os.mkdir(directory)`. -/
def ensureDir (fs : FileSystem) (d : String) : FileSystem :=
  if d ∈ fs.dirs then fs else ⟨d :: fs.dirs, fs.files⟩

/-- `archive.read(name)`: a missing entry raises `KeyError`, which is
modelled as an error value (it propagates in the source). -/
def zipRead (archive : List (String × FileData)) (name : String) :
    Except String FileData :=
  match dictLookup archive name with
  | some d => Except.ok d
  | none => Except.error "KeyError"

/-- `extract_submitted_zipfile` from `cli.py`: read the entry into memory,
open it as a nested archive and extract all of its entries into
`directory` under their own names (`ZipFile(...).extractall(directory)`).
A non-archive content raises `BadZipFile`, which propagates. -/
def extract_submitted_zipfile (archive : List (String × FileData))
    (filename_in_archive directory : String) (fs : FileSystem) :
    Except String FileSystem :=
  match zipRead archive filename_in_archive with
  | Except.error e => Except.error e
  | Except.ok (FileData.raw _) => Except.error "BadZipFile"
  | Except.ok (FileData.zipped entries) =>
    Except.ok (entries.foldl
      (fun f e => fsWrite f (directory ++ "/" ++ e.1) e.2) fs)

/-- `extract_submitted_nonzipfile` from `cli.py`: extract the entry into
`directory` under its in-archive name, then `os.rename` it to the target
filename inside the same directory. -/
def extract_submitted_nonzipfile (archive : List (String × FileData))
    (filename_in_archive target_filename directory : String)
    (fs : FileSystem) : Except String FileSystem :=
  match zipRead archive filename_in_archive with
  | Except.error e => Except.error e
  | Except.ok d =>
    Except.ok (fsWrite
      (fsRemove (fsWrite fs (directory ++ "/" ++ filename_in_archive) d)
        (directory ++ "/" ++ filename_in_archive))
      (directory ++ "/" ++ target_filename) d)

/-- `extract_submission_file` from `cli.py`: dispatch on the `.zip` suffix
of the target (original) filename. -/
def extract_submission_file (archive : List (String × FileData))
    (filename_in_archive target_filename directory : String)
    (fs : FileSystem) : Except String FileSystem :=
  if endsWithChars ".zip".data target_filename.data then
    extract_submitted_zipfile archive filename_in_archive directory fs
  else
    extract_submitted_nonzipfile archive filename_in_archive target_filename
      directory fs

/-- `slug_from_name` from `cli.py`:
`first_name, *rest = unidecode(name).lower().split(' ')` followed by
`f"{''.join(rest)}-{first_name}"`. `split` never returns an empty list,
so the empty pattern case below is unreachable. -/
def slug_from_name (name : String) : String :=
  match pySplitOnSpace (pyLower (unidecode name)).data with
  | [] => ""
  | first_name :: rest => String.mk (rest.flatten ++ '-' :: first_name)

/-- `extract_all_files_from_submission` from `cli.py`: create the slug
directory if needed, print the zero-files warning when the submission has
no files, then extract each file in mapping order. The warning lines
printed to standard output are returned alongside the filesystem result. -/
def extract_all_files_from_submission (archive : List (String × FileData))
    (submission : Submission) (fs : FileSystem) :
    Except String FileSystem × List String :=
  let directory := slug_from_name submission.name
  let fs1 := ensureDir fs directory
  let warnings :=
    if submission.files.length = 0 then
      ["WARNING: " ++ submission.name ++ " (" ++ submission.qid ++
        ") has submitted 0 files"]
    else []
  (submission.files.foldl
    (fun acc e =>
      match acc with
      | Except.error err => Except.error err
      | Except.ok f =>
        extract_submission_file archive e.1 e.2 directory f)
    (Except.ok fs1), warnings)

/-- The loop of the `unpack` command over the parsed submissions: each
submission is extracted in turn; an uncaught error aborts the run, and
warning output accumulates. -/
def unpack_submissions (archive : List (String × FileData)) :
    List Submission → FileSystem → Except String FileSystem × List String
  | [], fs => (Except.ok fs, [])
  | sub :: rest, fs =>
    match extract_all_files_from_submission archive sub fs with
    | (Except.ok fs', w) =>
      let r := unpack_submissions archive rest fs'
      (r.1, w ++ r.2)
    | (Except.error e, w) => (Except.error e, w)

/-! ## Specification-side definitions

The following predicates and functions are written from the wording of the
specification's claims (not from the source), to be compared with the
embedded code above. -/

/-- The fixed tail of the metadata filename pattern, as the spec words it:
`_q`, exactly 7 digits, `_`, the literal `poging` or `attempt`, `_`, a
timestamp of digits shaped `YYYY-MM-DD-HH-MM-SS`, and the `.txt` suffix. -/
def MetaTailSpec (cs : List Char) : Prop :=
  ∃ d7 kw y mo dd hh mi ss,
    (kw = "poging".data ∨ kw = "attempt".data) ∧
    DigitRun d7 7 ∧ DigitRun y 4 ∧ DigitRun mo 2 ∧ DigitRun dd 2 ∧
    DigitRun hh 2 ∧ DigitRun mi 2 ∧ DigitRun ss 2 ∧
    cs = ['_', 'q'] ++ d7 ++ ['_'] ++ kw ++ ['_'] ++ y ++ ['-'] ++ mo ++
      ['-'] ++ dd ++ ['-'] ++ hh ++ ['-'] ++ mi ++ ['-'] ++ ss ++ ".txt".data

/-- The claim's selection condition for the Metadata Locator, read
literally: some prefix followed by the fixed tail, covering the entire
filename. -/
def MetadataFilenameClaim (cs : List Char) : Prop :=
  ∃ p rest, cs = p ++ rest ∧ MetaTailSpec rest

/-- The amended selection condition: as `MetadataFilenameClaim`, but the
prefix may not contain a newline character (the `.*` of the source pattern
does not match `\n`). -/
def MetadataFilenameAmended (cs : List Char) : Prop :=
  ∃ p rest, cs = p ++ rest ∧ (∀ c ∈ p, c ≠ '\n') ∧ MetaTailSpec rest

/-- The spec's success condition for name/q-id extraction: somewhere in
the text, `Name:` or `Naam:` is followed by a free-text (single-line) name
and a parenthesized ID of form `q` + digits. -/
def NameLineSpec (cs : List Char) : Prop :=
  ∃ pre kw nm ds post,
    (kw = "Name".data ∨ kw = "Naam".data) ∧
    (∀ c ∈ nm, c ≠ '\n') ∧ ds ≠ [] ∧ (∀ c ∈ ds, c.isDigit = true) ∧
    cs = pre ++ kw ++ [':', ' '] ++ nm ++ [' ', '(', 'q'] ++ ds ++ [')'] ++ post

/-- The claim's matching condition for the file-mapping line patterns,
read literally: the entire line, after trimming leading whitespace,
consists of a keyword, a colon and space, and the value occupying the rest
of the line. -/
def TrimLineMatchSpec (kws : List (List Char)) (line : List Char) : Prop :=
  ∃ kw ∈ kws, ∃ v, line.dropWhile isPySpace = kw ++ [':', ' '] ++ v

/-- The amended matching condition: at least one leading whitespace
character is required, followed by a keyword, a colon and space, and the
(newline-free) value occupying the rest of the line. -/
def FullLineMatchSpec (kws : List (List Char)) (line : List Char) : Prop :=
  ∃ ws kw v,
    kw ∈ kws ∧ ws ≠ [] ∧ (∀ c ∈ ws, isPySpace c = true) ∧
    (∀ c ∈ v, c ≠ '\n') ∧ line = ws ++ kw ++ [':', ' '] ++ v

/-- The file-mapping pass exactly as the claim describes it: a single
left-to-right pass over the lines carrying the most recently seen original
filename (initially the sentinel `"dummy"`); an original-filename line
updates it, and a filename line records a mapping from that filename to
its current value. -/
def claimGo : List (List Char) → String → List (String × String) →
    List (String × String)
  | [], _, acc => acc
  | line :: rest, current, acc =>
    let current' := match matchTagged kwOrig line with
                    | some v => String.mk v
                    | none => current
    let acc' := match matchTagged kwFile line with
                | some v => dictInsert acc (String.mk v) current'
                | none => acc
    claimGo rest current' acc'

/-- The claim's description of `find_submitted_files` as a whole. -/
def claimFilePass (metadata : String) : List (String × String) :=
  claimGo (pySplitLines metadata.data) "dummy" []

/-- The raw sequence of (filename, original filename) records produced by
the metadata lines, in line order, without dictionary deduplication. -/
def recordSeq : List (List Char) → String → List (String × String)
  | [], _ => []
  | line :: rest, current =>
    let current' := match matchTagged kwOrig line with
                    | some v => String.mk v
                    | none => current
    match matchTagged kwFile line with
    | some v => (String.mk v, current') :: recordSeq rest current'
    | none => recordSeq rest current'

/-- The record sequence of a metadata text. -/
def recordsOf (metadata : String) : List (String × String) :=
  recordSeq (pySplitLines metadata.data) "dummy"

/-- The value attached to the last record carrying key `k`, if any
("a later duplicate overwrites the earlier entry"). -/
def lastValueFor (k : String) : List (String × String) → Option String
  | [] => none
  | (k', v) :: rest =>
    match lastValueFor k rest with
    | some r => some r
    | none => if k' = k then some v else none

/-! ## Helper lemmas: pattern consumers -/

theorem beginsWith_iff {p cs : List Char} :
    beginsWith p cs = true ↔ ∃ r, cs = p ++ r := by
  induction p generalizing cs with
  | nil => simp [beginsWith]
  | cons a ps ih =>
    cases cs with
    | nil => simp [beginsWith]
    | cons c cs =>
      simp only [beginsWith, Bool.and_eq_true, decide_eq_true_eq, ih,
        List.cons_append, List.cons.injEq]
      constructor
      · rintro ⟨rfl, r, rfl⟩; exact ⟨r, rfl, rfl⟩
      · rintro ⟨r, rfl, rfl⟩; exact ⟨rfl, r, rfl⟩

theorem consumeLit_eq_some {lit cs r : List Char} :
    consumeLit lit cs = some r ↔ cs = lit ++ r := by
  unfold consumeLit
  constructor
  · intro h
    by_cases hb : beginsWith lit cs = true
    · rw [if_pos hb] at h
      obtain ⟨r', rfl⟩ := beginsWith_iff.mp hb
      simp only [List.drop_left, Option.some.injEq] at h
      rw [h]
    · rw [if_neg hb] at h; exact absurd h (by simp)
  · rintro rfl
    rw [if_pos (beginsWith_iff.mpr ⟨r, rfl⟩), List.drop_left]

theorem consumeLit_append {lit r : List Char} :
    consumeLit lit (lit ++ r) = some r :=
  consumeLit_eq_some.mpr rfl

theorem consumeDigits_eq_some {n : Nat} {cs r : List Char} :
    consumeDigits n cs = some r ↔ ∃ d, DigitRun d n ∧ cs = d ++ r := by
  induction n generalizing cs with
  | zero =>
    simp only [consumeDigits, Option.some.injEq]
    constructor
    · rintro rfl; exact ⟨[], ⟨rfl, by simp⟩, rfl⟩
    · rintro ⟨d, ⟨hlen, _⟩, rfl⟩
      rw [List.length_eq_zero.mp hlen]; rfl
  | succ n ih =>
    cases cs with
    | nil =>
      constructor
      · intro h; simp [consumeDigits] at h
      · rintro ⟨d, ⟨hlen, _⟩, hcs⟩
        cases d with
        | nil => simp at hlen
        | cons a d => simp at hcs
    | cons c cs =>
      constructor
      · intro h
        simp only [consumeDigits] at h
        by_cases hc : c.isDigit = true
        · rw [if_pos hc] at h
          obtain ⟨d, hd, rfl⟩ := ih.mp h
          refine ⟨c :: d, ⟨by simp [hd.1], ?_⟩, rfl⟩
          intro x hx
          rcases List.mem_cons.mp hx with rfl | hx
          · exact hc
          · exact hd.2 x hx
        · rw [if_neg hc] at h; cases h
      · rintro ⟨d, hd, hcs⟩
        cases d with
        | nil => exact absurd hd.1 (by simp)
        | cons a d =>
          simp only [List.cons_append, List.cons.injEq] at hcs
          obtain ⟨rfl, rfl⟩ := hcs
          have ha : c.isDigit = true := hd.2 c (List.mem_cons_self c d)
          simp only [consumeDigits, if_pos ha]
          refine ih.mpr ⟨d, ⟨?_, fun x hx => hd.2 x (List.mem_cons_of_mem _ hx)⟩, rfl⟩
          have := hd.1
          simpa using this

theorem consumeDigits_append {n : Nat} {d r : List Char} (h : DigitRun d n) :
    consumeDigits n (d ++ r) = some r :=
  consumeDigits_eq_some.mpr ⟨d, h, rfl⟩

theorem pogingOrAttempt_eq_some {cs r : List Char} :
    pogingOrAttempt cs = some r ↔
      cs = "poging".data ++ r ∨ cs = "attempt".data ++ r := by
  unfold pogingOrAttempt
  constructor
  · intro h
    rcases h' : consumeLit "poging".data cs with _ | r'
    · rw [h'] at h
      exact Or.inr (consumeLit_eq_some.mp h)
    · rw [h'] at h
      simp only [Option.some.injEq] at h
      exact Or.inl (h ▸ consumeLit_eq_some.mp h')
  · rintro (rfl | rfl)
    · rw [consumeLit_append]
    · have hfail : consumeLit "poging".data ("attempt".data ++ r) = none := by
        unfold consumeLit
        rw [if_neg]
        intro hb
        obtain ⟨r', hr⟩ := beginsWith_iff.mp hb
        have := congrArg (fun l => l.head?) hr
        simp at this
      rw [hfail, consumeLit_append]

theorem consumeTimestamp_eq_some {cs r : List Char} :
    consumeTimestamp cs = some r ↔
      ∃ y mo dd hh mi ss,
        DigitRun y 4 ∧ DigitRun mo 2 ∧ DigitRun dd 2 ∧ DigitRun hh 2 ∧
        DigitRun mi 2 ∧ DigitRun ss 2 ∧
        cs = y ++ (['-'] ++ (mo ++ (['-'] ++ (dd ++ (['-'] ++ (hh ++
          (['-'] ++ (mi ++ (['-'] ++ (ss ++ r)))))))))) := by
  simp only [consumeTimestamp, Option.bind_eq_some, consumeLit_eq_some,
    consumeDigits_eq_some]
  constructor
  · rintro ⟨a1, ⟨y, hy, rfl⟩, a2, rfl, a3, ⟨mo, hmo, rfl⟩, a4, rfl, a5,
      ⟨dd, hdd, rfl⟩, a6, rfl, a7, ⟨hh, hhh, rfl⟩, a8, rfl, a9,
      ⟨mi, hmi, rfl⟩, a10, rfl, ss, hss, rfl⟩
    exact ⟨y, mo, dd, hh, mi, ss, hy, hmo, hdd, hhh, hmi, hss, rfl⟩
  · rintro ⟨y, mo, dd, hh, mi, ss, hy, hmo, hdd, hhh, hmi, hss, rfl⟩
    exact ⟨_, ⟨y, hy, rfl⟩, _, rfl, _, ⟨mo, hmo, rfl⟩, _, rfl, _,
      ⟨dd, hdd, rfl⟩, _, rfl, _, ⟨hh, hhh, rfl⟩, _, rfl, _,
      ⟨mi, hmi, rfl⟩, _, rfl, ss, hss, rfl⟩

theorem consumeLit_self {lit : List Char} : consumeLit lit lit = some [] := by
  have h := @consumeLit_append lit []
  rwa [List.append_nil] at h

theorem metaTailRest_eq_some_nil {cs : List Char} :
    metaTailRest cs = some [] ↔ MetaTailSpec cs := by
  simp only [metaTailRest, Option.bind_eq_some, consumeLit_eq_some,
    consumeDigits_eq_some, pogingOrAttempt_eq_some, consumeTimestamp_eq_some]
  constructor
  · rintro ⟨a1, rfl, a2, ⟨d7, hd7, rfl⟩, a3, rfl, a4, hkw, a5, rfl, a6,
      ⟨y, mo, dd, hh, mi, ss, hy, hmo, hdd, hhh, hmi, hss, rfl⟩, htxt⟩
    rw [List.append_nil] at htxt
    subst htxt
    rcases hkw with rfl | rfl
    · exact ⟨d7, _, y, mo, dd, hh, mi, ss, Or.inl rfl, hd7, hy, hmo, hdd,
        hhh, hmi, hss, by simp [List.append_assoc]⟩
    · exact ⟨d7, _, y, mo, dd, hh, mi, ss, Or.inr rfl, hd7, hy, hmo, hdd,
        hhh, hmi, hss, by simp [List.append_assoc]⟩
  · rintro ⟨d7, kw, y, mo, dd, hh, mi, ss, hkw, hd7, hy, hmo, hdd, hhh,
      hmi, hss, hcs⟩
    simp only [List.append_assoc] at hcs
    subst hcs
    rcases hkw with rfl | rfl
    · exact ⟨_, rfl, _, ⟨d7, hd7, rfl⟩, _, rfl, _, Or.inl rfl, _, rfl, _,
        ⟨y, mo, dd, hh, mi, ss, hy, hmo, hdd, hhh, hmi, hss, rfl⟩,
        by rw [List.append_nil]⟩
    · exact ⟨_, rfl, _, ⟨d7, hd7, rfl⟩, _, rfl, _, Or.inr rfl, _, rfl, _,
        ⟨y, mo, dd, hh, mi, ss, hy, hmo, hdd, hhh, hmi, hss, rfl⟩,
        by rw [List.append_nil]⟩

theorem metaTailMatch_iff {cs : List Char} :
    metaTailMatch cs = true ↔ MetaTailSpec cs := by
  rw [← metaTailRest_eq_some_nil]
  unfold metaTailMatch
  cases h : metaTailRest cs with
  | none => simp
  | some l =>
    cases l with
    | nil => simp
    | cons a l => simp

theorem metaScan_iff {cs : List Char} :
    metaScan cs = true ↔
      ∃ p rest, cs = p ++ rest ∧ (∀ c ∈ p, c ≠ '\n') ∧
        metaTailMatch rest = true := by
  induction cs with
  | nil =>
    constructor
    · intro h; exact ⟨[], [], rfl, by simp, h⟩
    · rintro ⟨p, rest, heq, _, ht⟩
      obtain ⟨rfl, rfl⟩ := List.append_eq_nil.mp heq.symm
      exact ht
  | cons c cs ih =>
    simp only [metaScan, Bool.or_eq_true, Bool.and_eq_true,
      decide_eq_true_eq, ih, ne_eq]
    constructor
    · rintro (h | ⟨hc, p, rest, rfl, hnl, ht⟩)
      · exact ⟨[], c :: cs, rfl, by simp, h⟩
      · refine ⟨c :: p, rest, rfl, ?_, ht⟩
        intro x hx
        rcases List.mem_cons.mp hx with rfl | hx
        · exact hc
        · exact hnl x hx
    · rintro ⟨p, rest, hcons, hnl, ht⟩
      cases p with
      | nil =>
        simp only [List.nil_append] at hcons
        exact Or.inl (hcons ▸ ht)
      | cons a p =>
        simp only [List.cons_append, List.cons.injEq] at hcons
        obtain ⟨rfl, rfl⟩ := hcons
        exact Or.inr ⟨hnl c (List.mem_cons_self c p),
          p, rest, rfl, fun x hx => hnl x (List.mem_cons_of_mem _ hx), ht⟩

/-! ## Claim C1 -/

/-- Claim C1, as stated, is false at an explicit input: the filename
`"a\nb_q1234567_poging_2021-01-02-03-04-05.txt"` does consist of a prefix
followed by the fixed pattern tail, yet `is_metadata_file` rejects it,
because the `.*` of the source pattern cannot match the newline in the
prefix. -/
theorem spec_c1_counterexample :
    MetadataFilenameClaim
      "a\nb_q1234567_poging_2021-01-02-03-04-05.txt".data ∧
    is_metadata_file "a\nb_q1234567_poging_2021-01-02-03-04-05.txt" =
      false := by
  constructor
  · refine ⟨"a\nb".data, "_q1234567_poging_2021-01-02-03-04-05.txt".data,
      by decide, ?_⟩
    refine ⟨"1234567".data, "poging".data, "2021".data, "01".data,
      "02".data, "03".data, "04".data, "05".data, Or.inl rfl, ?_, ?_, ?_,
      ?_, ?_, ?_, ?_, by decide⟩ <;> exact ⟨by decide, by decide⟩
  · decide

/-- Claim C1 (amended): `is_metadata_file` selects a filename if and only
if it is, in its entirety, a prefix containing no newline character,
followed by `_q`, exactly 7 digits, `_`, the literal `poging` or
`attempt`, `_`, a digit timestamp shaped `YYYY-MM-DD-HH-MM-SS`, and the
`.txt` suffix; any filename differing in one structural element (or with
trailing characters after the pattern) is rejected. -/
theorem spec_c1 (filename : String) :
    is_metadata_file filename = true ↔
      MetadataFilenameAmended filename.data := by
  unfold is_metadata_file MetadataFilenameAmended
  rw [metaScan_iff]
  simp only [metaTailMatch_iff]

/-! ## Helper lemmas: slug pipeline -/

theorem toLower_ne_space {c : Char} (h : c ≠ ' ') : Char.toLower c ≠ ' ' := by
  show (if c.toNat ≥ 65 ∧ c.toNat ≤ 90 then Char.ofNat (c.toNat + 32) else c) ≠ ' '
  by_cases hrange : c.toNat ≥ 65 ∧ c.toNat ≤ 90
  · rw [if_pos hrange]
    intro hcon
    have hv : (c.toNat + 32).isValidChar := Or.inl (by omega)
    have h32 := congrArg Char.toNat hcon
    rw [Char.ofNat, dif_pos hv] at h32
    simp [Char.ofNatAux, Char.toNat, UInt32.ofNat', UInt32.toNat,
      BitVec.toNat_ofNatLt] at h32
    have hz : c.toNat = 0 := h32
    omega
  · rw [if_neg hrange]; exact h

theorem pySplitOnSpace_ne_nil {cs : List Char} : pySplitOnSpace cs ≠ [] := by
  cases cs with
  | nil => simp [pySplitOnSpace]
  | cons c rest =>
    simp only [pySplitOnSpace]
    by_cases hc : c = ' '
    · rw [if_pos hc]; simp
    · rw [if_neg hc]
      cases h : pySplitOnSpace rest <;> simp

theorem pySplitOnSpace_no_space {cs : List Char} (h : ∀ c ∈ cs, c ≠ ' ') :
    pySplitOnSpace cs = [cs] := by
  induction cs with
  | nil => rfl
  | cons c rest ih =>
    have hc : c ≠ ' ' := h c (List.mem_cons_self c rest)
    simp only [pySplitOnSpace, if_neg hc]
    rw [ih fun x hx => h x (List.mem_cons_of_mem _ hx)]

/-! ## Claim C5 -/

/-- Claim C5: `slug_from_name` transliterates the name to ASCII, lowercases
it, splits on spaces into a first word and the rest, and returns the rest
concatenated, a hyphen, and the first word; in particular
`"Jane Doe" ↦ "doe-jane"`, `"Ren Ng" ↦ "ng-ren"`, and accented characters
are transliterated to ASCII before slugging (`"José Doe" ↦ "doe-jose"`). -/
theorem spec_c5 :
    (∀ name : String, ∃ first rest,
        pySplitOnSpace (pyLower (unidecode name)).data = first :: rest ∧
        slug_from_name name = String.mk (rest.flatten ++ '-' :: first)) ∧
    slug_from_name "Jane Doe" = "doe-jane" ∧
    slug_from_name "Ren Ng" = "ng-ren" ∧
    slug_from_name "José Doe" = "doe-jose" := by
  refine ⟨?_, by decide, by decide, by decide⟩
  intro name
  cases hsplit : pySplitOnSpace (pyLower (unidecode name)).data with
  | nil => exact absurd hsplit pySplitOnSpace_ne_nil
  | cons first rest =>
    refine ⟨first, rest, rfl, ?_⟩
    unfold slug_from_name
    rw [hsplit]

/-! ## Claim C10 -/

/-- Claim C10: for every submitter name containing no space character
after transliteration, `slug_from_name` returns `"-"` followed by the
lowercased transliterated name, so the derived directory name begins with
a hyphen. -/
theorem spec_c10 (name : String)
    (h : ∀ c ∈ (unidecode name).data, c ≠ ' ') :
    slug_from_name name = "-" ++ pyLower (unidecode name) := by
  have hl : ∀ c ∈ (pyLower (unidecode name)).data, c ≠ ' ' := by
    intro c hc
    obtain ⟨x, hx, rfl⟩ := List.mem_map.mp hc
    exact toLower_ne_space (h x hx)
  unfold slug_from_name
  rw [pySplitOnSpace_no_space hl]
  rfl

/-- Witness for C10 at the concrete single-word name `"Plato"`. -/
theorem spec_c10_witness :
    slug_from_name "Plato" = "-" ++ pyLower (unidecode "Plato") :=
  spec_c10 "Plato" (by decide)

/-! ## Helper lemmas: dictionary and file-mapping fold -/

theorem dictLookup_dictInsert {α : Type} (d : List (String × α))
    (k k0 : String) (v : α) :
    dictLookup (dictInsert d k v) k0 =
      if k = k0 then some v else dictLookup d k0 := by
  induction d with
  | nil => simp [dictInsert, dictLookup]
  | cons p rest ih =>
    obtain ⟨k', v'⟩ := p
    by_cases hk : k' = k
    · subst hk
      by_cases h0 : k' = k0 <;> simp [dictInsert, dictLookup, h0]
    · by_cases h0 : k' = k0
      · subst h0
        have hne : ¬k = k' := fun h => hk h.symm
        simp [dictInsert, dictLookup, hk, hne]
      · simp [dictInsert, dictLookup, hk, h0, ih]

theorem mem_keys_dictInsert {α : Type} {d : List (String × α)}
    {k x : String} {v : α}
    (h : x ∈ (dictInsert d k v).map Prod.fst) :
    x = k ∨ x ∈ d.map Prod.fst := by
  induction d with
  | nil => simpa [dictInsert] using h
  | cons p rest ih =>
    obtain ⟨k', v'⟩ := p
    by_cases hk : k' = k
    · subst hk
      simp only [dictInsert, ite_true, List.map_cons, List.mem_cons] at h
      rcases h with h | h
      · exact Or.inl h
      · exact Or.inr (List.mem_cons_of_mem _ h)
    · simp only [dictInsert, if_neg hk, List.map_cons, List.mem_cons] at h
      rcases h with h | h
      · exact Or.inr (h ▸ List.mem_cons_self _ _)
      · rcases ih h with h' | h'
        · exact Or.inl h'
        · exact Or.inr (List.mem_cons_of_mem _ h')

theorem keys_nodup_dictInsert {α : Type} {d : List (String × α)}
    {k : String} {v : α} (h : (d.map Prod.fst).Nodup) :
    ((dictInsert d k v).map Prod.fst).Nodup := by
  induction d with
  | nil => simp [dictInsert]
  | cons p rest ih =>
    obtain ⟨k', v'⟩ := p
    simp only [List.map_cons, List.nodup_cons] at h
    by_cases hk : k' = k
    · subst hk
      simpa [dictInsert] using h
    · simp only [dictInsert, if_neg hk, List.map_cons, List.nodup_cons]
      refine ⟨fun hmem => ?_, ih h.2⟩
      rcases mem_keys_dictInsert hmem with rfl | hmem
      · exact hk rfl
      · exact h.1 hmem

theorem fm_fold_eq_claimGo :
    ∀ (lines : List (List Char)) (an : String)
      (acc : List (String × String)),
      (lines.foldl fmStep (an, acc)).2 = claimGo lines an acc := by
  intro lines
  induction lines with
  | nil => intro an acc; rfl
  | cons line rest ih =>
    intro an acc
    cases h1 : matchTagged kwOrig line <;> cases h2 : matchTagged kwFile line <;>
      simp [List.foldl_cons, claimGo, fmStep, h1, h2, ih]

theorem fm_fold_nodup :
    ∀ (lines : List (List Char)) (an : String)
      (acc : List (String × String)),
      (acc.map Prod.fst).Nodup →
      (((lines.foldl fmStep (an, acc)).2).map Prod.fst).Nodup := by
  intro lines
  induction lines with
  | nil => intro an acc h; exact h
  | cons line rest ih =>
    intro an acc h
    rw [List.foldl_cons]
    cases h1 : matchTagged kwOrig line <;> cases h2 : matchTagged kwFile line <;>
      simp only [fmStep, h1, h2] <;>
      exact ih _ _ (by first | exact h | exact keys_nodup_dictInsert h)

theorem fm_fold_lookup :
    ∀ (lines : List (List Char)) (an : String)
      (acc : List (String × String)) (k : String),
      dictLookup ((lines.foldl fmStep (an, acc)).2) k =
        match lastValueFor k (recordSeq lines an) with
        | some v => some v
        | none => dictLookup acc k := by
  intro lines
  induction lines with
  | nil => intro an acc k; rfl
  | cons line rest ih =>
    intro an acc k
    rw [List.foldl_cons]
    cases h1 : matchTagged kwOrig line with
    | none =>
      cases h2 : matchTagged kwFile line with
      | none =>
        simp only [fmStep, recordSeq, h1, h2]
        exact ih _ _ _
      | some v =>
        simp only [fmStep, recordSeq, h1, h2]
        rw [ih]
        simp only [lastValueFor]
        cases lastValueFor k (recordSeq rest an) with
        | some r => rfl
        | none =>
          rw [dictLookup_dictInsert]
          by_cases hv : String.mk v = k
          · rw [if_pos hv, if_pos hv]
          · rw [if_neg hv, if_neg hv]
    | some w =>
      cases h2 : matchTagged kwFile line with
      | none =>
        simp only [fmStep, recordSeq, h1, h2]
        exact ih _ _ _
      | some v =>
        simp only [fmStep, recordSeq, h1, h2]
        rw [ih]
        simp only [lastValueFor]
        cases lastValueFor k (recordSeq rest (String.mk w)) with
        | some r => rfl
        | none =>
          rw [dictLookup_dictInsert]
          by_cases hv : String.mk v = k
          · rw [if_pos hv, if_pos hv]
          · rw [if_neg hv, if_neg hv]

/-! ## Claim C2 -/

/-- Claim C2: `find_submitted_files` equals the single left-to-right pass
described by the spec, with the remembered original filename initialised to
the sentinel `"dummy"`; in particular a filename line that precedes every
original-filename line maps to `"dummy"`. -/
theorem spec_c2 :
    (∀ metadata : String,
        find_submitted_files metadata = claimFilePass metadata) ∧
    find_submitted_files "  Bestandsnaam: foo" = [("foo", "dummy")] := by
  refine ⟨?_, by decide⟩
  intro md
  unfold find_submitted_files claimFilePass
  exact fm_fold_eq_claimGo _ _ _

/-! ## Claim C7 -/

/-- Claim C7: within a submission the file-mapping keys are unique, and
each key is bound to the original-filename value of the last record with
that key (a later duplicate filename line overwrites the earlier entry,
with the original-filename value current at the later line). -/
theorem spec_c7 (metadata : String) :
    ((find_submitted_files metadata).map Prod.fst).Nodup ∧
    ∀ k, dictLookup (find_submitted_files metadata) k =
      lastValueFor k (recordsOf metadata) := by
  constructor
  · exact fm_fold_nodup _ _ _ (by simp)
  · intro k
    unfold find_submitted_files recordsOf
    rw [fm_fold_lookup]
    cases lastValueFor k (recordSeq (pySplitLines metadata.data) "dummy") <;>
      simp [dictLookup]

/-! ## Helper lemmas: full-line tag matching -/

theorem drop_takeWhile_length {p : Char → Bool} {l : List Char} :
    l.drop (l.takeWhile p).length = l.dropWhile p := by
  induction l with
  | nil => rfl
  | cons c t ih =>
    by_cases hp : p c = true
    · simp [List.takeWhile_cons, List.dropWhile_cons, hp, ih]
    · simp [List.takeWhile_cons, List.dropWhile_cons, hp]

theorem takeWhile_append_cons {p : Char → Bool} {ws : List Char} {k : Char}
    {t : List Char} (hws : ∀ c ∈ ws, p c = true) (hk : p k = false) :
    (ws ++ k :: t).takeWhile p = ws := by
  induction ws with
  | nil => simp [List.takeWhile_cons, hk]
  | cons a ws ih =>
    simp only [List.cons_append, List.takeWhile_cons,
      hws a (List.mem_cons_self a ws), if_true, List.cons.injEq, true_and]
    exact ih fun c hc => hws c (List.mem_cons_of_mem _ hc)

theorem lineDecomp_unique {kws : List (List Char)}
    (hpair : ∀ k1 ∈ kws, ∀ k2 ∈ kws, k1 ≠ k2 → beginsWith k1 k2 = false)
    {kw1 kw2 v1 v2 : List Char} (h1 : kw1 ∈ kws) (h2 : kw2 ∈ kws)
    (heq : kw1 ++ [':', ' '] ++ v1 = kw2 ++ [':', ' '] ++ v2) : v1 = v2 := by
  rw [List.append_assoc, List.append_assoc] at heq
  rcases List.append_eq_append_iff.mp heq with ⟨a, ha, hv⟩ | ⟨c, hc, hv⟩
  · rcases a with _ | ⟨x, a⟩
    · rw [List.append_nil] at ha
      subst ha
      simpa using hv
    · exfalso
      have hne : kw1 ≠ kw2 := by
        intro hkk
        have := congrArg List.length ha
        simp [← hkk] at this
      have hb : beginsWith kw1 kw2 = true := beginsWith_iff.mpr ⟨x :: a, ha⟩
      rw [hpair kw1 h1 kw2 h2 hne] at hb
      cases hb
  · rcases c with _ | ⟨x, c⟩
    · rw [List.append_nil] at hc
      subst hc
      have : v2 = v1 := by simpa using hv
      exact this.symm
    · exfalso
      have hne : kw2 ≠ kw1 := by
        intro hkk
        have := congrArg List.length hc
        simp [← hkk] at this
      have hb : beginsWith kw2 kw1 = true := beginsWith_iff.mpr ⟨x :: c, hc⟩
      rw [hpair kw2 h2 kw1 h1 hne] at hb
      cases hb

theorem matchKw_eq_some {kws : List (List Char)} {rest v : List Char}
    (h : matchKw kws rest = some v) :
    ∃ kw ∈ kws, rest = kw ++ [':', ' '] ++ v := by
  induction kws with
  | nil => cases h
  | cons kw kws ih =>
    by_cases hb : beginsWith (kw ++ [':', ' ']) rest = true
    · rw [matchKw, if_pos hb] at h
      obtain ⟨r, rfl⟩ := beginsWith_iff.mp hb
      have hd : ((kw ++ [':', ' ']) ++ r).drop (kw.length + 2) = r := by
        have hlen : (kw ++ [':', ' ']).length = kw.length + 2 := by simp
        rw [← hlen, List.drop_left]
      rw [hd] at h
      obtain rfl := Option.some.inj h
      exact ⟨kw, List.mem_cons_self kw kws, by rw [List.append_assoc]⟩
    · rw [matchKw, if_neg hb] at h
      obtain ⟨kw', hmem, hrest⟩ := ih h
      exact ⟨kw', List.mem_cons_of_mem _ hmem, hrest⟩

theorem matchKw_isSome {kws : List (List Char)} {rest : List Char}
    (kw v : List Char) (hkw : kw ∈ kws)
    (hrest : rest = kw ++ [':', ' '] ++ v) :
    (matchKw kws rest).isSome = true := by
  induction kws with
  | nil => cases hkw
  | cons k kws ih =>
    by_cases hb : beginsWith (k ++ [':', ' ']) rest = true
    · rw [matchKw, if_pos hb]; rfl
    · rw [matchKw, if_neg hb]
      rcases List.mem_cons.mp hkw with rfl | hmem
      · exact absurd (beginsWith_iff.mpr ⟨v, by rw [hrest, List.append_assoc]⟩) hb
      · exact ih hmem

theorem matchTagged_isSome_iff {kws : List (List Char)} {line : List Char}
    (hpair : ∀ k1 ∈ kws, ∀ k2 ∈ kws, k1 ≠ k2 → beginsWith k1 k2 = false)
    (hhead : ∀ kw ∈ kws, ∃ k t, kw = k :: t ∧ isPySpace k = false) :
    (matchTagged kws line).isSome = true ↔ FullLineMatchSpec kws line := by
  constructor
  · intro h
    unfold matchTagged at h
    by_cases hws : (line.takeWhile isPySpace).isEmpty
    · rw [if_pos hws] at h; cases h
    · rw [if_neg hws] at h
      cases hm : matchKw kws (line.drop (line.takeWhile isPySpace).length) with
      | none => rw [hm] at h; cases h
      | some v =>
        rw [hm, Option.some_bind] at h
        by_cases hnl : v.any (· = '\n') = true
        · rw [if_pos hnl] at h; cases h
        · obtain ⟨kw, hkw, hrest⟩ := matchKw_eq_some hm
          rw [drop_takeWhile_length] at hrest
          refine ⟨line.takeWhile isPySpace, kw, v, hkw, ?_, ?_, ?_, ?_⟩
          · intro hnil
            rw [hnil] at hws
            exact hws rfl
          · exact fun c hc => List.mem_takeWhile_imp hc
          · intro c hc hcc
            exact hnl (List.any_eq_true.mpr ⟨c, hc, by simp [hcc]⟩)
          · conv_lhs => rw [← List.takeWhile_append_dropWhile (p := isPySpace) (l := line)]
            rw [hrest]
            simp [List.append_assoc]
  · rintro ⟨ws, kw, v, hkw, hne, hws, hnl, rfl⟩
    obtain ⟨k, t, rfl, hk⟩ := hhead kw hkw
    have htw : ((ws ++ (k :: t) ++ [':', ' '] ++ v).takeWhile isPySpace) = ws := by
      have hshape : ws ++ (k :: t) ++ [':', ' '] ++ v =
          ws ++ (k :: (t ++ [':', ' '] ++ v)) := by simp
      rw [hshape]
      exact takeWhile_append_cons hws hk
    unfold matchTagged
    rw [htw, if_neg (by simp only [List.isEmpty_eq_true]; exact hne)]
    have hdrop : (ws ++ (k :: t) ++ [':', ' '] ++ v).drop ws.length =
        (k :: t) ++ [':', ' '] ++ v := by
      have hshape : ws ++ (k :: t) ++ [':', ' '] ++ v =
          ws ++ ((k :: t) ++ [':', ' '] ++ v) := by simp
      rw [hshape, List.drop_left]
    rw [hdrop]
    cases hm : matchKw kws ((k :: t) ++ [':', ' '] ++ v) with
    | none =>
      have hs := matchKw_isSome (k :: t) v hkw rfl
      rw [hm] at hs
      cases hs
    | some v0 =>
      obtain ⟨kw0, hkw0, hr0⟩ := matchKw_eq_some hm
      have hv0 : v0 = v := lineDecomp_unique hpair hkw0 hkw hr0.symm
      subst hv0
      have hfa : v0.any (· = '\n') = false := by
        rw [List.any_eq_false]
        intro x hx
        simp only [decide_eq_true_eq]
        exact hnl x hx
      rw [Option.some_bind, if_neg (by rw [hfa]; exact Bool.false_ne_true)]
      rfl

/-! ## Claim C6 -/

/-- Claim C6, as stated, is false at an explicit input: the line
`"Bestandsnaam: foo"` with no leading whitespace does consist (after the
vacuous trim) of a keyword, colon-space and value, yet the pattern does
not match it — the `\s+` of the source patterns requires at least one
leading whitespace character — and `find_submitted_files` ignores it. -/
theorem spec_c6_counterexample :
    TrimLineMatchSpec kwFile "Bestandsnaam: foo".data ∧
    matchTagged kwFile "Bestandsnaam: foo".data = none ∧
    find_submitted_files "Bestandsnaam: foo" = [] := by
  refine ⟨⟨"Bestandsnaam".data, ?_, "foo".data, ?_⟩, ?_, ?_⟩
  · decide
  · decide
  · decide
  · decide

/-- Claim C6 (amended): the file-mapping line patterns match a line if and
only if it consists of at least one leading whitespace character, a
keyword, a colon and space, and the (newline-free) value occupying the
rest of the line; every line of any different structure — including one
with no leading whitespace — is ignored by the scanning step of
`find_submitted_files`. -/
theorem spec_c6 (line : List Char) :
    ((matchTagged kwOrig line).isSome = true ↔ FullLineMatchSpec kwOrig line) ∧
    ((matchTagged kwFile line).isSome = true ↔ FullLineMatchSpec kwFile line) ∧
    (∀ (an : String) (acc : List (String × String)),
      matchTagged kwOrig line = none → matchTagged kwFile line = none →
      fmStep (an, acc) line = (an, acc)) := by
  refine ⟨matchTagged_isSome_iff (by decide) ?_,
    matchTagged_isSome_iff (by decide) ?_, ?_⟩
  · intro kw hkw
    simp only [kwOrig, List.mem_cons, List.not_mem_nil, or_false] at hkw
    rcases hkw with rfl | rfl
    · exact ⟨'O', "orspronkelijke bestandsnaam".data, rfl, by decide⟩
    · exact ⟨'O', "riginal filename".data, rfl, by decide⟩
  · intro kw hkw
    simp only [kwFile, List.mem_cons, List.not_mem_nil, or_false] at hkw
    rcases hkw with rfl | rfl
    · exact ⟨'B', "estandsnaam".data, rfl, by decide⟩
    · exact ⟨'F', "ilename".data, rfl, by decide⟩
  · intro an acc h1 h2
    simp [fmStep, h1, h2]

/-- Witness for the amended C6: the theorem applied at the concrete
keyword-free line `"x"`, whose hypotheses hold by evaluation. -/
theorem spec_c6_witness :
    fmStep ("dummy", []) "x".data = ("dummy", []) :=
  (spec_c6 "x".data).2.2 "dummy" [] (by decide) (by decide)

/-! ## Helper lemmas: name/q-id search -/

theorem digitRunParen_eq_some {cs ds : List Char} :
    digitRunParen cs = some ds ↔
      (∀ c ∈ ds, c.isDigit = true) ∧ ∃ post, cs = ds ++ ')' :: post := by
  induction cs generalizing ds with
  | nil =>
    simp only [digitRunParen]
    constructor
    · intro h; cases h
    · rintro ⟨_, post, h⟩
      cases ds <;> simp at h
  | cons c rest ih =>
    by_cases hc : c = ')'
    · subst hc
      simp only [digitRunParen, if_pos rfl]
      constructor
      · intro h
        obtain rfl := Option.some.inj h
        exact ⟨by simp, rest, rfl⟩
      · rintro ⟨hdig, post, heq⟩
        cases ds with
        | nil => rfl
        | cons d ds' =>
          simp only [List.cons_append, List.cons.injEq] at heq
          exact absurd (heq.1 ▸ hdig d (List.mem_cons_self d ds'))
            (by decide)
    · by_cases hd : c.isDigit = true
      · simp only [digitRunParen, if_neg hc, if_pos hd]
        constructor
        · intro h
          obtain ⟨ds', hds', rfl⟩ := Option.map_eq_some'.mp h
          obtain ⟨hdig, post, rfl⟩ := ih.mp hds'
          refine ⟨?_, post, rfl⟩
          intro x hx
          rcases List.mem_cons.mp hx with rfl | hx
          · exact hd
          · exact hdig x hx
        · rintro ⟨hdig, post, heq⟩
          cases ds with
          | nil =>
            simp only [List.nil_append, List.cons.injEq] at heq
            exact absurd heq.1 hc
          | cons d ds' =>
            simp only [List.cons_append, List.cons.injEq] at heq
            obtain ⟨rfl, hrest⟩ := heq
            rw [ih.mpr ⟨fun x hx => hdig x (List.mem_cons_of_mem _ hx),
              post, hrest⟩]
            rfl
      · simp only [digitRunParen, if_neg hc, if_neg hd]
        constructor
        · intro h; cases h
        · rintro ⟨hdig, post, heq⟩
          cases ds with
          | nil =>
            simp only [List.nil_append, List.cons.injEq] at heq
            exact absurd heq.1 hc
          | cons d ds' =>
            simp only [List.cons_append, List.cons.injEq] at heq
            exact absurd (heq.1 ▸ hdig d (List.mem_cons_self d ds')) hd

theorem tryTail_cons_unfold {rest : List Char} :
    tryTail (' ' :: '(' :: 'q' :: rest) =
      (digitRunParen rest).bind fun ds =>
        if ds.isEmpty then none else some ('q' :: ds) := by
  simp [tryTail]

theorem tryTail_eq_some {cs q : List Char} :
    tryTail cs = some q ↔
      ∃ ds post, q = 'q' :: ds ∧ ds ≠ [] ∧ (∀ c ∈ ds, c.isDigit = true) ∧
        cs = ' ' :: '(' :: 'q' :: (ds ++ ')' :: post) := by
  rcases cs with _ | ⟨a, _ | ⟨b, _ | ⟨c, rest⟩⟩⟩
  · simp [tryTail]
  · simp [tryTail]
  · simp [tryTail]
  · by_cases habc : a = ' ' ∧ b = '(' ∧ c = 'q'
    · obtain ⟨rfl, rfl, rfl⟩ := habc
      rw [tryTail_cons_unfold, Option.bind_eq_some]
      simp only [digitRunParen_eq_some]
      constructor
      · rintro ⟨ds0, ⟨hdig, post, rfl⟩, hif⟩
        cases ds0 with
        | nil => simp at hif
        | cons d ds' =>
          rw [if_neg (by simp)] at hif
          obtain rfl := Option.some.inj hif
          exact ⟨d :: ds', post, rfl, by simp, hdig, rfl⟩
      · rintro ⟨ds, post, rfl, hne, hdig, heq⟩
        simp only [List.cons.injEq, true_and] at heq
        refine ⟨ds, ⟨hdig, post, heq⟩, ?_⟩
        rw [if_neg (by simpa using hne)]
    · have hnone : tryTail (a :: b :: c :: rest) = none := by
        simp only [tryTail]
        rw [if_neg habc]
      rw [hnone]
      constructor
      · intro h; cases h
      · rintro ⟨ds, post, rfl, hne, hdig, heq⟩
        simp only [List.cons.injEq] at heq
        exact absurd ⟨heq.1, heq.2.1, heq.2.2.1⟩ habc

theorem greedyNameQid_eq_some {cs : List Char} :
    ∀ {n q : List Char}, greedyNameQid cs = some (n, q) →
      (∀ c ∈ n, c ≠ '\n') ∧
      ∃ ds post, q = 'q' :: ds ∧ ds ≠ [] ∧ (∀ c ∈ ds, c.isDigit = true) ∧
        cs = n ++ ' ' :: '(' :: 'q' :: (ds ++ ')' :: post) := by
  induction cs with
  | nil => intro n q h; cases h
  | cons c rest ih =>
    intro n q h
    by_cases hc : c = '\n'
    · rw [greedyNameQid, if_pos hc] at h
      obtain ⟨q', hq', hpair⟩ := Option.map_eq_some'.mp h
      obtain ⟨ds, post, rfl, hne, hdig, hshape⟩ := tryTail_eq_some.mp hq'
      exfalso
      have hsp : c = ' ' := by
        injection hshape
      rw [hc] at hsp
      exact absurd hsp (by decide)
    · rw [greedyNameQid, if_neg hc] at h
      cases hg : greedyNameQid rest with
      | some p =>
        obtain ⟨n', q'⟩ := p
        rw [hg] at h
        have hpq := Option.some.inj h
        have hfst : c :: n' = n := congrArg Prod.fst hpq
        have hsnd : q' = q := congrArg Prod.snd hpq
        obtain rfl := hfst
        obtain rfl := hsnd
        obtain ⟨hn, ds, post, hq, hne, hdig, hshape⟩ := ih hg
        refine ⟨?_, ds, post, hq, hne, hdig,
          by rw [List.cons_append, ← hshape]⟩
        intro x hx
        rcases List.mem_cons.mp hx with rfl | hx
        · exact hc
        · exact hn x hx
      | none =>
        rw [hg] at h
        obtain ⟨q', hq', hpair⟩ := Option.map_eq_some'.mp h
        obtain ⟨ds, post, rfl, hne, hdig, hshape⟩ := tryTail_eq_some.mp hq'
        have hfst : ([] : List Char) = n := congrArg Prod.fst hpair
        have hsnd : 'q' :: ds = q := congrArg Prod.snd hpair
        obtain rfl := hfst
        obtain rfl := hsnd
        refine ⟨by simp, ds, post, rfl, hne, hdig, ?_⟩
        rw [List.nil_append]
        exact hshape

theorem greedyNameQid_isSome :
    ∀ (n ds post : List Char), (∀ c ∈ n, c ≠ '\n') → ds ≠ [] →
      (∀ c ∈ ds, c.isDigit = true) →
      (greedyNameQid (n ++ ' ' :: '(' :: 'q' :: (ds ++ ')' :: post))).isSome =
        true := by
  intro n
  induction n with
  | nil =>
    intro ds post _ hne hdig
    rw [List.nil_append, greedyNameQid, if_neg (by decide)]
    cases hg : greedyNameQid ('(' :: 'q' :: (ds ++ ')' :: post)) with
    | some p => rfl
    | none =>
      rw [show tryTail (' ' :: '(' :: 'q' :: (ds ++ ')' :: post)) =
        some ('q' :: ds) from
        tryTail_eq_some.mpr ⟨ds, post, rfl, hne, hdig, rfl⟩]
      rfl
  | cons c n' ih =>
    intro ds post hn hne hdig
    rw [List.cons_append, greedyNameQid,
      if_neg (hn c (List.mem_cons_self c n'))]
    cases hg : greedyNameQid (n' ++ ' ' :: '(' :: 'q' :: (ds ++ ')' :: post)) with
    | some p => rfl
    | none =>
      have hs := ih ds post (fun x hx => hn x (List.mem_cons_of_mem _ hx))
        hne hdig
      rw [hg] at hs
      cases hs

theorem matchNameHere_eq_some {cs n q : List Char}
    (h : matchNameHere cs = some (n, q)) :
    ∃ kw, (kw = "Name".data ∨ kw = "Naam".data) ∧ (∀ c ∈ n, c ≠ '\n') ∧
      ∃ ds post, q = 'q' :: ds ∧ ds ≠ [] ∧ (∀ c ∈ ds, c.isDigit = true) ∧
        cs = kw ++ [':', ' '] ++
          (n ++ ' ' :: '(' :: 'q' :: (ds ++ ')' :: post)) := by
  unfold matchNameHere at h
  by_cases hb1 : beginsWith "Name: ".data cs = true
  · rw [if_pos hb1] at h
    obtain ⟨r, rfl⟩ := beginsWith_iff.mp hb1
    have hdrop : ("Name: ".data ++ r).drop 6 = r := by
      have hd := List.drop_left "Name: ".data r
      exact hd
    rw [hdrop] at h
    obtain ⟨hn, ds, post, hq, hne, hdig, hshape⟩ := greedyNameQid_eq_some h
    exact ⟨"Name".data, Or.inl rfl, hn, ds, post, hq, hne, hdig,
      by rw [hshape]; rfl⟩
  · rw [if_neg hb1] at h
    by_cases hb2 : beginsWith "Naam: ".data cs = true
    · rw [if_pos hb2] at h
      obtain ⟨r, rfl⟩ := beginsWith_iff.mp hb2
      have hdrop : ("Naam: ".data ++ r).drop 6 = r := by
        have hd := List.drop_left "Naam: ".data r
        exact hd
      rw [hdrop] at h
      obtain ⟨hn, ds, post, hq, hne, hdig, hshape⟩ := greedyNameQid_eq_some h
      exact ⟨"Naam".data, Or.inr rfl, hn, ds, post, hq, hne, hdig,
        by rw [hshape]; rfl⟩
    · rw [if_neg hb2] at h
      cases h

theorem matchNameHere_isSome {cs : List Char} (kw n ds post : List Char)
    (hkw : kw = "Name".data ∨ kw = "Naam".data) (hn : ∀ c ∈ n, c ≠ '\n')
    (hne : ds ≠ []) (hdig : ∀ c ∈ ds, c.isDigit = true)
    (hcs : cs = kw ++ [':', ' '] ++
      (n ++ ' ' :: '(' :: 'q' :: (ds ++ ')' :: post))) :
    (matchNameHere cs).isSome = true := by
  subst hcs
  rcases hkw with rfl | rfl
  · unfold matchNameHere
    have hb : beginsWith "Name: ".data
        ("Name".data ++ [':', ' '] ++
          (n ++ ' ' :: '(' :: 'q' :: (ds ++ ')' :: post))) = true :=
      beginsWith_iff.mpr ⟨n ++ ' ' :: '(' :: 'q' :: (ds ++ ')' :: post), rfl⟩
    rw [if_pos hb]
    have hdrop : ("Name".data ++ [':', ' '] ++
        (n ++ ' ' :: '(' :: 'q' :: (ds ++ ')' :: post))).drop 6 =
        n ++ ' ' :: '(' :: 'q' :: (ds ++ ')' :: post) := by
      have hd := List.drop_left ("Name".data ++ [':', ' '])
        (n ++ ' ' :: '(' :: 'q' :: (ds ++ ')' :: post))
      exact hd
    rw [hdrop]
    exact greedyNameQid_isSome n ds post hn hne hdig
  · unfold matchNameHere
    have hb1 : beginsWith "Name: ".data
        ("Naam".data ++ [':', ' '] ++
          (n ++ ' ' :: '(' :: 'q' :: (ds ++ ')' :: post))) = false := by
      simp [beginsWith]
    rw [hb1, if_neg (by simp)]
    have hb2 : beginsWith "Naam: ".data
        ("Naam".data ++ [':', ' '] ++
          (n ++ ' ' :: '(' :: 'q' :: (ds ++ ')' :: post))) = true :=
      beginsWith_iff.mpr ⟨n ++ ' ' :: '(' :: 'q' :: (ds ++ ')' :: post), rfl⟩
    rw [if_pos hb2]
    have hdrop : ("Naam".data ++ [':', ' '] ++
        (n ++ ' ' :: '(' :: 'q' :: (ds ++ ')' :: post))).drop 6 =
        n ++ ' ' :: '(' :: 'q' :: (ds ++ ')' :: post) := by
      have hd := List.drop_left ("Naam".data ++ [':', ' '])
        (n ++ ' ' :: '(' :: 'q' :: (ds ++ ')' :: post))
      exact hd
    rw [hdrop]
    exact greedyNameQid_isSome n ds post hn hne hdig

theorem searchNameQid_eq_some {cs : List Char} :
    ∀ {n q : List Char}, searchNameQid cs = some (n, q) →
      ∃ pre kw, (kw = "Name".data ∨ kw = "Naam".data) ∧
        (∀ c ∈ n, c ≠ '\n') ∧
        ∃ ds post, q = 'q' :: ds ∧ ds ≠ [] ∧ (∀ c ∈ ds, c.isDigit = true) ∧
          cs = pre ++ (kw ++ [':', ' '] ++
            (n ++ ' ' :: '(' :: 'q' :: (ds ++ ')' :: post))) := by
  induction cs with
  | nil => intro n q h; cases h
  | cons c rest ih =>
    intro n q h
    rw [searchNameQid] at h
    cases hm : matchNameHere (c :: rest) with
    | some r =>
      rw [hm] at h
      obtain ⟨n0, q0⟩ := r
      have hpq := Option.some.inj h
      have hfst : n0 = n := congrArg Prod.fst hpq
      have hsnd : q0 = q := congrArg Prod.snd hpq
      obtain rfl := hfst
      obtain rfl := hsnd
      obtain ⟨kw, hkw, hn, ds, post, hq, hne, hdig, hshape⟩ :=
        matchNameHere_eq_some hm
      exact ⟨[], kw, hkw, hn, ds, post, hq, hne, hdig,
        by rw [List.nil_append]; exact hshape⟩
    | none =>
      rw [hm] at h
      obtain ⟨pre, kw, hkw, hn, ds, post, hq, hne, hdig, hshape⟩ := ih h
      exact ⟨c :: pre, kw, hkw, hn, ds, post, hq, hne, hdig,
        by rw [List.cons_append, ← hshape]⟩

theorem searchNameQid_isSome_of_here {cs : List Char}
    (h : (matchNameHere cs).isSome = true) :
    (searchNameQid cs).isSome = true := by
  cases cs with
  | nil => simp [matchNameHere, beginsWith] at h
  | cons c rest =>
    rw [searchNameQid]
    cases hm : matchNameHere (c :: rest) with
    | some r => rfl
    | none => rw [hm] at h; cases h

theorem searchNameQid_isSome :
    ∀ (pre kw n ds post cs : List Char),
      (kw = "Name".data ∨ kw = "Naam".data) → (∀ c ∈ n, c ≠ '\n') →
      ds ≠ [] → (∀ c ∈ ds, c.isDigit = true) →
      cs = pre ++ (kw ++ [':', ' '] ++
        (n ++ ' ' :: '(' :: 'q' :: (ds ++ ')' :: post))) →
      (searchNameQid cs).isSome = true := by
  intro pre
  induction pre with
  | nil =>
    intro kw n ds post cs hkw hn hne hdig hcs
    exact searchNameQid_isSome_of_here
      (matchNameHere_isSome kw n ds post hkw hn hne hdig
        (by rw [hcs, List.nil_append]))
  | cons c pre' ih =>
    intro kw n ds post cs hkw hn hne hdig hcs
    subst hcs
    rw [List.cons_append, searchNameQid]
    cases hm : matchNameHere (c :: (pre' ++ (kw ++ [':', ' '] ++
      (n ++ ' ' :: '(' :: 'q' :: (ds ++ ')' :: post))))) with
    | some r => rfl
    | none => exact ih kw n ds post _ hkw hn hne hdig rfl

/-! ## Claim C3 -/

/-- Claim C3: `parse_metadata` (via `extract_name_and_qid_from_metadata`)
fails with the metadata parse error if and only if no line anywhere in the
text contains `Name:` or `Naam:` followed by a free-text name and a
parenthesized ID of form `q` + digits; when such a line exists, the
returned Submission carries the free-text part as its name and the
parenthesized `q`+digits part as its qid. -/
theorem spec_c3 (metadata : String) :
    (isOkB (parse_metadata metadata) = false ↔ ¬NameLineSpec metadata.data) ∧
    ∀ sub, parse_metadata metadata = Except.ok sub →
      ∃ pre kw ds post,
        (kw = "Name".data ∨ kw = "Naam".data) ∧
        (∀ c ∈ sub.name.data, c ≠ '\n') ∧ ds ≠ [] ∧
        (∀ c ∈ ds, c.isDigit = true) ∧ sub.qid.data = 'q' :: ds ∧
        metadata.data = pre ++ kw ++ [':', ' '] ++ sub.name.data ++
          [' ', '(', 'q'] ++ ds ++ [')'] ++ post := by
  have hiff : isOkB (parse_metadata metadata) = false ↔
      searchNameQid metadata.data = none := by
    unfold parse_metadata extract_name_and_qid_from_metadata
    cases hs : searchNameQid metadata.data with
    | none => simp [isOkB]
    | some p => simp [isOkB]
  constructor
  · rw [hiff]
    constructor
    · intro hnone hspec
      obtain ⟨pre, kw, nm, ds, post, hkw, hn, hne, hdig, hcs⟩ := hspec
      have hs := searchNameQid_isSome pre kw nm ds post metadata.data hkw hn
        hne hdig (by simpa using hcs)
      rw [hnone] at hs
      cases hs
    · intro hns
      cases hs : searchNameQid metadata.data with
      | none => rfl
      | some r =>
        obtain ⟨n0, q0⟩ := r
        obtain ⟨pre, kw, hkw, hn, ds, post, hq, hne, hdig, hshape⟩ :=
          searchNameQid_eq_some hs
        exact absurd ⟨pre, kw, n0, ds, post, hkw, hn, hne, hdig,
          by simpa using hshape⟩ hns
  · intro sub hsub
    unfold parse_metadata extract_name_and_qid_from_metadata at hsub
    cases hs : searchNameQid metadata.data with
    | none => rw [hs] at hsub; simp at hsub
    | some r =>
      obtain ⟨n0, q0⟩ := r
      rw [hs] at hsub
      have hsubeq := Except.ok.inj hsub
      obtain rfl := hsubeq
      obtain ⟨pre, kw, hkw, hn, ds, post, hq, hne, hdig, hshape⟩ :=
        searchNameQid_eq_some hs
      exact ⟨pre, kw, ds, post, hkw, hn, hne, hdig, hq,
        by simpa using hshape⟩

/-- Witness for C3 at the concrete metadata line
`"Naam: Jane Doe (q1234567)"`: its parse succeeds with name `"Jane Doe"`
and qid `"q1234567"`, and the theorem exhibits the matched line. -/
theorem spec_c3_witness :
    ∃ pre kw ds post,
      (kw = "Name".data ∨ kw = "Naam".data) ∧
      (∀ c ∈ ("Jane Doe" : String).data, c ≠ '\n') ∧ ds ≠ [] ∧
      (∀ c ∈ ds, c.isDigit = true) ∧
      ("q1234567" : String).data = 'q' :: ds ∧
      ("Naam: Jane Doe (q1234567)" : String).data = pre ++ kw ++
        [':', ' '] ++ ("Jane Doe" : String).data ++ [' ', '(', 'q'] ++ ds ++
        [')'] ++ post :=
  (spec_c3 "Naam: Jane Doe (q1234567)").2 ⟨"Jane Doe", "q1234567", []⟩ rfl

/-! ## Claim C4 -/

theorem find_submissions_cons_ok {x : String × String}
    {rest : List (String × String)} {s : Submission}
    (hx : is_metadata_file x.1 = true)
    (hp : parse_metadata x.2 = Except.ok s) :
    find_submissions (x :: rest) =
      (s :: (find_submissions rest).1, (find_submissions rest).2) := by
  rw [find_submissions, if_pos hx, hp]

theorem find_submissions_cons_err {x : String × String}
    {rest : List (String × String)} {err : String}
    (hx : is_metadata_file x.1 = true)
    (hp : parse_metadata x.2 = Except.error err) :
    find_submissions (x :: rest) =
      ((find_submissions rest).1,
       ("Error: could not parse metadata from $" ++ x.1) ::
         (find_submissions rest).2) := by
  rw [find_submissions, if_pos hx, hp]

theorem find_submissions_cons_skip {x : String × String}
    {rest : List (String × String)}
    (hx : ¬is_metadata_file x.1 = true) :
    find_submissions (x :: rest) = find_submissions rest := by
  rw [find_submissions, if_neg hx]

/-- Claim C4: when a metadata entry fails to parse, `find_submissions`
writes a warning line to standard error naming that entry, emits no
Submission for it, and continues: the submissions and warnings of the
entries before and after it are unaffected. -/
theorem spec_c4 (pre post : List (String × String)) (e : String × String)
    (hmeta : is_metadata_file e.1 = true)
    (hfail : isOkB (parse_metadata e.2) = false) :
    find_submissions (pre ++ e :: post) =
      ((find_submissions pre).1 ++ (find_submissions post).1,
       (find_submissions pre).2 ++
         ("Error: could not parse metadata from $" ++ e.1) ::
           (find_submissions post).2) := by
  obtain ⟨err, hperr⟩ : ∃ err, parse_metadata e.2 = Except.error err := by
    cases hp : parse_metadata e.2 with
    | ok s => rw [hp] at hfail; simp [isOkB] at hfail
    | error err => exact ⟨err, rfl⟩
  induction pre with
  | nil =>
    simp only [List.nil_append]
    rw [find_submissions_cons_err hmeta hperr]
    simp [find_submissions]
  | cons x pre' ih =>
    simp only [List.cons_append]
    by_cases hx : is_metadata_file x.1 = true
    · cases hp : parse_metadata x.2 with
      | ok s =>
        rw [find_submissions_cons_ok hx hp, find_submissions_cons_ok hx hp,
          ih]
        simp
      | error err2 =>
        rw [find_submissions_cons_err hx hp, find_submissions_cons_err hx hp,
          ih]
        simp
    · rw [find_submissions_cons_skip hx, find_submissions_cons_skip hx]
      exact ih

/-- Witness for C4 at a concrete three-entry archive whose middle metadata
entry has no name line: the failing entry yields the stderr warning and no
submission, while the surrounding entries are processed normally. -/
theorem spec_c4_witness :
    find_submissions
        ([("a_q1111111_poging_2021-01-02-03-04-05.txt",
            "Naam: Ann Bee (q1)")] ++
          ("bad_q2222222_attempt_2021-01-02-03-04-05.txt", "no name") ::
            [("c_q3333333_poging_2021-01-02-03-04-05.txt",
               "Name: Cee Dee (q2)")]) =
      ((find_submissions [("a_q1111111_poging_2021-01-02-03-04-05.txt",
          "Naam: Ann Bee (q1)")]).1 ++
        (find_submissions [("c_q3333333_poging_2021-01-02-03-04-05.txt",
          "Name: Cee Dee (q2)")]).1,
       (find_submissions [("a_q1111111_poging_2021-01-02-03-04-05.txt",
          "Naam: Ann Bee (q1)")]).2 ++
        ("Error: could not parse metadata from $" ++
          "bad_q2222222_attempt_2021-01-02-03-04-05.txt") ::
          (find_submissions [("c_q3333333_poging_2021-01-02-03-04-05.txt",
            "Name: Cee Dee (q2)")]).2) :=
  spec_c4 _ _ _ (by decide) (by decide)

/-! ## Claim C8 -/

/-- Claim C8: extraction of one submitted file dispatches on the `.zip`
suffix of the original filename. If it ends in `.zip`, the entry is read
and opened as a nested archive and all its entries are extracted into the
output directory under their own names, with no renaming and no
intermediate file under the target name; otherwise the single entry is
extracted under its in-archive name and then renamed to the original name
within the same directory. -/
theorem spec_c8 (archive : List (String × FileData))
    (filename_in_archive target_filename directory : String)
    (fs : FileSystem) :
    (endsWithChars ".zip".data target_filename.data = true →
      extract_submission_file archive filename_in_archive target_filename
          directory fs =
        extract_submitted_zipfile archive filename_in_archive directory fs ∧
      ∀ entries,
        dictLookup archive filename_in_archive =
          some (FileData.zipped entries) →
        extract_submission_file archive filename_in_archive target_filename
            directory fs =
          Except.ok (entries.foldl
            (fun f e => fsWrite f (directory ++ "/" ++ e.1) e.2) fs)) ∧
    (endsWithChars ".zip".data target_filename.data = false →
      extract_submission_file archive filename_in_archive target_filename
          directory fs =
        extract_submitted_nonzipfile archive filename_in_archive
          target_filename directory fs ∧
      ∀ d, dictLookup archive filename_in_archive = some d →
        extract_submission_file archive filename_in_archive target_filename
            directory fs =
          Except.ok (fsWrite
            (fsRemove
              (fsWrite fs (directory ++ "/" ++ filename_in_archive) d)
              (directory ++ "/" ++ filename_in_archive))
            (directory ++ "/" ++ target_filename) d)) := by
  constructor
  · intro hz
    have hdisp : extract_submission_file archive filename_in_archive
        target_filename directory fs =
        extract_submitted_zipfile archive filename_in_archive directory fs := by
      unfold extract_submission_file
      rw [if_pos hz]
    refine ⟨hdisp, ?_⟩
    intro entries hl
    rw [hdisp]
    unfold extract_submitted_zipfile zipRead
    rw [hl]
  · intro hz
    have hdisp : extract_submission_file archive filename_in_archive
        target_filename directory fs =
        extract_submitted_nonzipfile archive filename_in_archive
          target_filename directory fs := by
      unfold extract_submission_file
      rw [if_neg (by rw [hz]; exact Bool.false_ne_true)]
    refine ⟨hdisp, ?_⟩
    intro d hl
    rw [hdisp]
    unfold extract_submitted_nonzipfile zipRead
    rw [hl]

/-- Witness for C8 at concrete one-entry archives: a submitted zip is
unpacked into the directory, and a submitted plain file is extracted and
renamed. -/
theorem spec_c8_witness :
    extract_submission_file
        [("f", FileData.zipped [("a.txt", FileData.raw "x")])] "f" "t.zip"
        "d" ⟨[], []⟩ =
      Except.ok ([("a.txt", FileData.raw "x")].foldl
        (fun f e => fsWrite f ("d" ++ "/" ++ e.1) e.2) ⟨[], []⟩) ∧
    extract_submission_file [("g", FileData.raw "y")] "g" "t.txt" "d"
        ⟨[], []⟩ =
      Except.ok (fsWrite
        (fsRemove (fsWrite ⟨[], []⟩ ("d" ++ "/" ++ "g") (FileData.raw "y"))
          ("d" ++ "/" ++ "g"))
        ("d" ++ "/" ++ "t.txt") (FileData.raw "y")) :=
  ⟨((spec_c8 _ "f" "t.zip" "d" _).1 (by decide)).2
      [("a.txt", FileData.raw "x")] rfl,
   ((spec_c8 _ "g" "t.txt" "d" _).2 (by decide)).2 (FileData.raw "y") rfl⟩

/-! ## Claim C9 -/

/-- Claim C9: a parsed submission with an empty files mapping produces the
non-fatal zero-files warning naming the submitter's name and qid (and the
extraction still succeeds, so the remaining submissions of the `unpack`
loop are processed unchanged); a submission with a non-empty files mapping
produces no such warning. -/
theorem spec_c9 (archive : List (String × FileData)) (sub : Submission)
    (fs : FileSystem) (rest : List Submission) :
    (sub.files = [] →
      extract_all_files_from_submission archive sub fs =
        (Except.ok (ensureDir fs (slug_from_name sub.name)),
         ["WARNING: " ++ sub.name ++ " (" ++ sub.qid ++
           ") has submitted 0 files"])) ∧
    (sub.files ≠ [] →
      (extract_all_files_from_submission archive sub fs).2 = []) ∧
    (sub.files = [] →
      unpack_submissions archive (sub :: rest) fs =
        ((unpack_submissions archive rest
            (ensureDir fs (slug_from_name sub.name))).1,
         ("WARNING: " ++ sub.name ++ " (" ++ sub.qid ++
           ") has submitted 0 files") ::
           (unpack_submissions archive rest
             (ensureDir fs (slug_from_name sub.name))).2)) := by
  have h1 : sub.files = [] →
      extract_all_files_from_submission archive sub fs =
        (Except.ok (ensureDir fs (slug_from_name sub.name)),
         ["WARNING: " ++ sub.name ++ " (" ++ sub.qid ++
           ") has submitted 0 files"]) := by
    intro h
    unfold extract_all_files_from_submission
    rw [h]
    rfl
  refine ⟨h1, ?_, ?_⟩
  · intro h
    unfold extract_all_files_from_submission
    rw [if_neg (by simpa using h)]
  · intro h
    rw [unpack_submissions, h1 h]
    rfl

/-- Witness for C9 at a concrete submission with an empty files mapping:
the zero-files warning is emitted and extraction succeeds. -/
theorem spec_c9_witness :
    extract_all_files_from_submission [] ⟨"Ann Bee", "q1", []⟩ ⟨[], []⟩ =
      (Except.ok (ensureDir ⟨[], []⟩ (slug_from_name "Ann Bee")),
       ["WARNING: " ++ "Ann Bee" ++ " (" ++ "q1" ++
         ") has submitted 0 files"]) :=
  (spec_c9 [] ⟨"Ann Bee", "q1", []⟩ ⟨[], []⟩ []).1 rfl
